import Mathlib

/-!
Verification of the SQL security validator and query-result cache of the
dm_mcp repository (src/database.py), via a shallow embedding in Lean 4.

SQL text is modelled as `List Char`.  Python's `str.upper` is modelled
char-wise by `Char.toUpper` (all inputs of interest are ASCII), `str.strip`
by dropping whitespace from both ends, and `str.split()` by splitting on
runs of whitespace.  Python dicts (which preserve insertion order) are
modelled as association lists where assignment replaces the value in place
for an existing key and appends a fresh key at the end, `del` removes the
entry, and iteration follows list order.  `time.time()` is modelled by an
explicit `Nat` parameter `now` supplied to every cache operation.
-/

/-- Characters treated as whitespace by Python's `str.strip` / `str.split` /
regex `\s` (ASCII range): space, tab, newline, carriage return, vertical
tab, form feed. -/
def isWS (c : Char) : Bool :=
  c = ' ' || c = '\t' || c = '\n' || c = '\r' || c = '\x0b' || c = '\x0c'

/-- Python `str.upper`, char-wise (ASCII). -/
def toUpperChars (s : List Char) : List Char :=
  s.map Char.toUpper

/-- Python `str.strip`: drop whitespace from both ends. -/
def stripChars (s : List Char) : List Char :=
  ((s.dropWhile isWS).reverse.dropWhile isWS).reverse

/-- Helper for `splitWords`: accumulates the current word (reversed). -/
def splitWordsAux : List Char → List Char → List (List Char)
  | [], acc => if acc.isEmpty then [] else [acc.reverse]
  | c :: t, acc =>
    if isWS c then
      if acc.isEmpty then splitWordsAux t [] else acc.reverse :: splitWordsAux t []
    else
      splitWordsAux t (c :: acc)

/-- Python `str.split()` with no separator: split on whitespace runs,
discarding empty pieces. -/
def splitWords (s : List Char) : List (List Char) :=
  splitWordsAux s []

/-- `SQLValidator._extract_first_keyword`: `words[0] if words else ""`. -/
def extractFirstKeyword (sqlUpper : List Char) : List Char :=
  (splitWords sqlUpper).headD []

/-- Python substring test `needle in hay` on strings. -/
def containsSub (needle : List Char) : List Char → Bool
  | [] => needle.isEmpty
  | c :: t => needle.isPrefixOf (c :: t) || containsSub needle t

/-- `SQLValidator.READONLY_OPERATIONS`. -/
def READONLY_OPERATIONS : List (List Char) :=
  ["SELECT".toList, "WITH".toList, "SHOW".toList, "DESCRIBE".toList,
   "EXPLAIN".toList, "ANALYZE".toList]

/-- `SQLValidator.WRITE_OPERATIONS`. -/
def WRITE_OPERATIONS : List (List Char) :=
  ["INSERT".toList, "UPDATE".toList]

/-- `SQLValidator.DANGEROUS_OPERATIONS`. -/
def DANGEROUS_OPERATIONS : List (List Char) :=
  ["DELETE".toList, "DROP".toList, "CREATE".toList, "ALTER".toList,
   "TRUNCATE".toList, "GRANT".toList, "REVOKE".toList]

/-- A token of one of the seven fixed dangerous-clause regexes of
`_validate_readonly`.  Every one of those regexes is a `\b`-delimited
sequence of literals, `\s+` gaps and (for the UPDATE pattern) one `\w+`
word, so this small token language captures them exactly. -/
inductive PatTok
  | lit (s : List Char)
  | spaces1
  | word1
deriving DecidableEq

/-- Regex `\w` on the upper-cased ASCII text: `[A-Za-z0-9_]`. -/
def isWordChar (c : Char) : Bool :=
  c.isAlphanum || c = '_'

/-- Match a token sequence greedily at the head of `hay`, returning the
rest of the text on success.  Greedy matching without backtracking is
exact for the seven patterns because `\s+` and `\w+` are always followed
by a token that cannot consume the characters they take. -/
def matchSeq : List PatTok → List Char → Option (List Char)
  | [], hay => some hay
  | .lit s :: ts, hay =>
    if s.isPrefixOf hay then matchSeq ts (hay.drop s.length) else none
  | .spaces1 :: ts, hay =>
    if (hay.takeWhile isWS).isEmpty then none
    else matchSeq ts (hay.dropWhile isWS)
  | .word1 :: ts, hay =>
    if (hay.takeWhile isWordChar).isEmpty then none
    else matchSeq ts (hay.dropWhile isWordChar)

/-- The leading `\b`: the previous character (if any) is not a word
character.  All seven patterns begin with a literal word character. -/
def prevBoundary : Option Char → Bool
  | none => true
  | some c => !isWordChar c

/-- The trailing `\b`: the next character (if any) is not a word
character.  All seven patterns end with a literal word character. -/
def nextBoundary : List Char → Bool
  | [] => true
  | c :: _ => !isWordChar c

/-- Does the pattern match exactly at this position (with boundaries)? -/
def matchHere (p : List PatTok) (prev : Option Char) (hay : List Char) : Bool :=
  prevBoundary prev &&
    match matchSeq p hay with
    | some rest => nextBoundary rest
    | none => false

/-- Scan every position of the text, tracking the previous character. -/
def searchPatAux (p : List PatTok) (prev : Option Char) : List Char → Bool
  | [] => matchHere p prev []
  | c :: t => matchHere p prev (c :: t) || searchPatAux p (some c) t

/-- Python `re.search(pattern, text) is not None` for the fixed patterns. -/
def reSearch (p : List PatTok) (s : List Char) : Bool :=
  searchPatAux p none s

/-- The `dangerous_patterns` list of `_validate_readonly`, in source
order: `\bDROP\s+TABLE\b`, `\bTRUNCATE\s+TABLE\b`, `\bDELETE\s+FROM\b`,
`\bINSERT\s+INTO\b`, `\bUPDATE\s+\w+\s+SET\b`, `\bCREATE\s+TABLE\b`,
`\bALTER\s+TABLE\b`. -/
def dangerousPatterns : List (List PatTok) :=
  [[.lit "DROP".toList, .spaces1, .lit "TABLE".toList],
   [.lit "TRUNCATE".toList, .spaces1, .lit "TABLE".toList],
   [.lit "DELETE".toList, .spaces1, .lit "FROM".toList],
   [.lit "INSERT".toList, .spaces1, .lit "INTO".toList],
   [.lit "UPDATE".toList, .spaces1, .word1, .spaces1, .lit "SET".toList],
   [.lit "CREATE".toList, .spaces1, .lit "TABLE".toList],
   [.lit "ALTER".toList, .spaces1, .lit "TABLE".toList]]

/-- `config.SecurityMode`. -/
inductive SecurityMode
  | READONLY
  | LIMITED_WRITE
  | FULL_ACCESS
deriving DecidableEq

/-- `SQLValidator._validate_readonly`.  The source returns `False` when the
first keyword is outside `READONLY_OPERATIONS`; for a `SELECT` it returns
`False` as soon as one of the seven embedded-clause regexes matches; for
any other read keyword it returns `False` as soon as a keyword of
`WRITE_OPERATIONS ∪ DANGEROUS_OPERATIONS` occurs as a substring; otherwise
it returns `True`.  (The Python sets are unordered; only emptiness of the
set of matches is observable, so list order is irrelevant.) -/
def validateReadonly (firstKeyword sqlUpper : List Char) : Bool :=
  if firstKeyword ∈ READONLY_OPERATIONS then
    if firstKeyword = "SELECT".toList then
      dangerousPatterns.all fun p => !reSearch p sqlUpper
    else
      (WRITE_OPERATIONS ++ DANGEROUS_OPERATIONS).all fun f => !containsSub f sqlUpper
  else
    false

/-- `SQLValidator._validate_limited_write`. -/
def validateLimitedWrite (firstKeyword sqlUpper : List Char) : Bool :=
  if firstKeyword ∈ READONLY_OPERATIONS ++ WRITE_OPERATIONS then
    DANGEROUS_OPERATIONS.all fun d => !containsSub d sqlUpper
  else
    false

/-- `SQLValidator.validate_sql`: normalize (`sql.upper().strip()`), extract
the first whitespace-delimited token, and dispatch on the security mode. -/
def validate_sql (sql : List Char) (mode : SecurityMode) : Bool :=
  let sqlUpper := stripChars (toUpperChars sql)
  let firstKeyword := extractFirstKeyword sqlUpper
  match mode with
  | .READONLY => validateReadonly firstKeyword sqlUpper
  | .LIMITED_WRITE => validateLimitedWrite firstKeyword sqlUpper
  | .FULL_ACCESS => true

/-- `SQLValidator.get_error_message`. -/
def get_error_message (sql : List Char) (mode : SecurityMode) : String :=
  let sqlUpper := stripChars (toUpperChars sql)
  let firstKeyword := extractFirstKeyword sqlUpper
  match mode with
  | .READONLY =>
    if firstKeyword ∈ WRITE_OPERATIONS then
      "只读模式下禁止写入操作: " ++ String.mk firstKeyword
    else if firstKeyword ∈ DANGEROUS_OPERATIONS then
      "只读模式下禁止危险操作: " ++ String.mk firstKeyword
    else
      "只读模式下不支持的操作: " ++ String.mk firstKeyword
  | .LIMITED_WRITE =>
    if firstKeyword ∈ DANGEROUS_OPERATIONS then
      "限制写入模式下禁止危险操作: " ++ String.mk firstKeyword
    else
      "限制写入模式下不支持的操作: " ++ String.mk firstKeyword
  | .FULL_ACCESS => "操作被安全策略禁止"

/-- First value stored under a key in an association list (Python dict
lookup `d[k]` / `k in d`). -/
def lookupKey (k : List Char) : List (List Char × β) → Option β
  | [] => none
  | (k', v) :: t => if k' = k then some v else lookupKey k t

/-- Python dict assignment `d[k] = v`: replace the value in place for an
existing key, append a fresh key at the end (dicts preserve insertion
order). -/
def setKey (k : List Char) (v : β) : List (List Char × β) → List (List Char × β)
  | [] => [(k, v)]
  | (k', v') :: t => if k' = k then (k, v) :: t else (k', v') :: setKey k v t

/-- Python dict deletion `del d[k]` (guarded by `k in d` in `_remove`, so
deleting an absent key is the identity). -/
def eraseKey (k : List Char) : List (List Char × β) → List (List Char × β)
  | [] => []
  | (k', v') :: t => if k' = k then t else (k', v') :: eraseKey k t

/-- The key list of an association list, in iteration order. -/
def keysOf (l : List (List Char × β)) : List (List Char) :=
  l.map Prod.fst

/-- `QueryCache._generate_key` builds `key_data = f"{sql}_{schema or ''}"`
and returns `hashlib.md5(key_data...).hexdigest()`.  md5 is a fixed
deterministic function of `key_data`, so two calls agree exactly when the
`key_data` strings agree (we abstract md5 as injective, i.e. collision
free); the key is therefore modelled as `key_data` itself.  `schema or ''`
maps both `None` and the empty string to the empty string. -/
def generate_key (sql : List Char) (schema : Option (List Char)) : List Char :=
  sql ++ '_' :: (match schema with | none => [] | some s => s)

/-- One entry of `QueryCache.cache`: the dict
`{'data': ..., 'timestamp': ..., 'sql': ..., 'schema': ...}` built by
`set`.  Result payloads are abstracted by a type parameter `α`. -/
structure CacheEntry (α : Type) where
  data : α
  timestamp : Nat
  sql : List Char
  schema : Option (List Char)
deriving DecidableEq

/-- The `QueryCache` state: entry map, capacity, ttl, last-access map. -/
structure QueryCache (α : Type) where
  cache : List (List Char × CacheEntry α)
  max_size : Nat
  ttl : Nat
  access_times : List (List Char × Nat)
deriving DecidableEq

/-- `QueryCache.__init__`. -/
def emptyCache (α : Type) (max_size ttl : Nat) : QueryCache α :=
  ⟨[], max_size, ttl, []⟩

/-- `QueryCache._remove`. -/
def cacheRemove (c : QueryCache α) (key : List Char) : QueryCache α :=
  { c with cache := eraseKey key c.cache,
           access_times := eraseKey key c.access_times }

/-- `QueryCache.get`, with the two `time.time()` reads modelled by the
explicit `now` argument; returns the hit payload (or `none`) together with
the updated cache state.  `now - timestamp` is `Nat` subtraction, which
agrees with the Python comparison `time.time() - timestamp > ttl` whenever
`ttl ≥ 0` (a negative Python difference and a truncated-to-0 Nat
difference are both `≤ ttl`). -/
def cacheGet (c : QueryCache α) (now : Nat) (sql : List Char)
    (schema : Option (List Char)) : Option α × QueryCache α :=
  let key := generate_key sql schema
  match lookupKey key c.cache with
  | none => (none, c)
  | some e =>
    if now - e.timestamp > c.ttl then
      (none, cacheRemove c key)
    else
      (some e.data, { c with access_times := setKey key now c.access_times })

/-- The first key attaining the minimal value so far (Python `min` over
`access_times.keys()` keyed by `access_times[k]` keeps the first minimum
in iteration order). -/
def argminGo (k : List Char) (v : Nat) : List (List Char × Nat) → List Char
  | [] => k
  | (k', v') :: t => if v' < v then argminGo k' v' t else argminGo k v t

/-- The key of the minimal value of a nonempty association list, first
occurrence winning ties. -/
def argminKey : List (List Char × Nat) → Option (List Char)
  | [] => none
  | (k, v) :: t => some (argminGo k v t)

/-- `QueryCache._evict_oldest`: no-op on an empty access map, otherwise
remove the key of smallest access time. -/
def evictOldest (c : QueryCache α) : QueryCache α :=
  match argminKey c.access_times with
  | none => c
  | some k => cacheRemove c k

/-- `QueryCache.set`: evict the oldest entry when `len(cache) >= max_size`,
then write the entry and the access time (both `time.time()` calls
modelled by `now`). -/
def cacheSet (c : QueryCache α) (now : Nat) (sql : List Char) (data : α)
    (schema : Option (List Char)) : QueryCache α :=
  let key := generate_key sql schema
  let c1 := if c.cache.length ≥ c.max_size then evictOldest c else c
  { c1 with cache := setKey key ⟨data, now, sql, schema⟩ c1.cache,
            access_times := setKey key now c1.access_times }

/-- `QueryCache.clear`. -/
def cacheClear (c : QueryCache α) : QueryCache α :=
  { c with cache := [], access_times := [] }

/-- A public cache operation, with its `time.time()` value explicit. -/
inductive CacheOp (α : Type)
  | get (now : Nat) (sql : List Char) (schema : Option (List Char))
  | set (now : Nat) (sql : List Char) (data : α) (schema : Option (List Char))
  | clear
deriving DecidableEq

/-- Apply one public operation to the cache state. -/
def applyOp (c : QueryCache α) : CacheOp α → QueryCache α
  | .get now sql schema => (cacheGet c now sql schema).2
  | .set now sql data schema => cacheSet c now sql data schema
  | .clear => cacheClear c

/-- Run a sequence of public operations. -/
def runOps (c : QueryCache α) (ops : List (CacheOp α)) : QueryCache α :=
  ops.foldl applyOp c

/-- The tuple of `str.startswith` in `DamengDatabase.execute_query` (lines
278 and 294): `('SELECT', 'WITH', 'SHOW', 'DESCRIBE', 'EXPLAIN')` — note
`ANALYZE` is absent. -/
def queryStatementKeywords : List (List Char) :=
  ["SELECT".toList, "WITH".toList, "SHOW".toList, "DESCRIBE".toList,
   "EXPLAIN".toList]

/-- `sql.upper().strip().startswith(('SELECT', 'WITH', 'SHOW', 'DESCRIBE',
'EXPLAIN'))`: a string-prefix test, not a leading-token test. -/
def isQueryStatement (sql : List Char) : Bool :=
  queryStatementKeywords.any fun p => p.isPrefixOf (stripChars (toUpperChars sql))

/-- What `execute_query` returns: fetched rows for the query path, or the
`{"affected_rows": ..., "status": "success"}` row for the non-query path. -/
inductive ExecResult (α : Type)
  | rows (data : α)
  | nonQuery
deriving DecidableEq

/-- `DamengDatabase.execute_query`, restricted to its validator/cache
behavior.  The database round-trip (connection, fetch, `Decimal`
conversion and row truncation) is abstracted by the oracle `dbRun`,
which yields the processed row payload for a statement; a successful
execution is modelled (a `dmPython.Error` aborts before any `set`, which
only strengthens the cache-gating theorems' scope to successful reads).
Control flow follows the source: reject via the validator first (raising
`ValueError` with `get_error_message`, before any cache access); consult
the cache only when `use_cache` is set and the statement passes the
`startswith` test of line 278; on a miss execute, and re-test the same
`startswith` condition (line 294) to choose between the query path (which
caches the result when `use_cache` is set, line 340) and the non-query
path (which never touches the cache). -/
def execute_query (dbRun : List Char → α) (mode : SecurityMode)
    (c : QueryCache α) (now : Nat) (sql : List Char) (use_cache : Bool) :
    Except String (ExecResult α) × QueryCache α :=
  if validate_sql sql mode then
    match (if use_cache && isQueryStatement sql
           then cacheGet c now sql none
           else (none, c)) with
    | (some r, c') => (.ok (.rows r), c')
    | (none, c') =>
      if isQueryStatement sql then
        let res := dbRun sql
        (.ok (.rows res), if use_cache then cacheSet c' now sql res none else c')
      else
        (.ok .nonQuery, c')
  else
    (.error ("SQL操作被安全策略禁止: " ++ get_error_message sql mode), c)

/-- Effect of `setKey` on the key list alone (specification artifact for
the proofs below, not part of the source). -/
def insK (k : List Char) : List (List Char) → List (List Char)
  | [] => [k]
  | x :: t => if x = k then x :: t else x :: insK k t

/-- Effect of `eraseKey` on the key list alone (proof artifact). -/
def eraseK (k : List Char) : List (List Char) → List (List Char)
  | [] => []
  | x :: t => if x = k then t else x :: eraseK k t

/-- Insert a list of distinct statements at consecutive times `t0`,
`t0+1`, … (the C4 overflow scenario: capacity + 1 fresh keys with
strictly increasing access times). -/
def insertAll (c : QueryCache α) (d : α) (t0 : Nat) : List (List Char) → QueryCache α
  | [] => c
  | k :: ks => insertAll (cacheSet c t0 k d none) d (t0 + 1) ks

/-- The entry map produced by inserting `ks` at consecutive times from
`t0` into an empty region (proof artifact describing `insertAll`). -/
def entriesOf (d : α) (t0 : Nat) : List (List Char) → List (List Char × CacheEntry α)
  | [] => []
  | k :: ks => (generate_key k none, ⟨d, t0, k, none⟩) :: entriesOf d (t0 + 1) ks

/-- The access-time map produced by the same insertions (proof artifact). -/
def timesOf (t0 : Nat) : List (List Char) → List (List Char × Nat)
  | [] => []
  | k :: ks => (generate_key k none, t0) :: timesOf (t0 + 1) ks

/-- A concrete reachable cache state at capacity (two entries, capacity
2), used to witness the at-capacity eviction theorem. -/
def c4WitnessCache : QueryCache Nat :=
  cacheSet (cacheSet (emptyCache Nat 2 300) 0 "A".toList 1 none) 1 "B".toList 2 none

/-- C1: Under the ReadOnly tier, `validate_sql` accepts a statement iff its
leading keyword (first whitespace-delimited token of the upper-cased,
trimmed text) is in the Read set and, when that keyword is exactly SELECT,
none of the fixed embedded dangerous-clause patterns occurs anywhere in
the normalized text; when the leading keyword is a non-SELECT Read
keyword, no Write or Dangerous keyword occurs anywhere in the text.  In
particular ReadOnly accepts "SELECT * FROM T" and rejects
"DELETE FROM T", "DROP TABLE T", and "SELECT * FROM T; DROP TABLE T". -/
theorem validateReadonly_eq_true (kw sqlU : List Char) :
    validateReadonly kw sqlU = true ↔
      (kw ∈ READONLY_OPERATIONS ∧
       (kw = "SELECT".toList →
          ∀ p ∈ dangerousPatterns, reSearch p sqlU = false) ∧
       (kw ≠ "SELECT".toList →
          ∀ f ∈ WRITE_OPERATIONS ++ DANGEROUS_OPERATIONS,
            containsSub f sqlU = false)) := by
  unfold validateReadonly
  by_cases hm : kw ∈ READONLY_OPERATIONS
  · by_cases hs : kw = "SELECT".toList
    · simp [hm, hs, List.all_eq_true, Bool.not_eq_true']
    · have hs' : kw ≠ ('S' :: 'E' :: 'L' :: 'E' :: 'C' :: 'T' :: []) := hs
      simp [hm, hs', List.all_eq_true, Bool.not_eq_true', or_imp, forall_and]
  · simp [hm]

theorem c1_readonly_validation :
    (∀ sql : List Char,
      validate_sql sql .READONLY = true ↔
        (extractFirstKeyword (stripChars (toUpperChars sql)) ∈ READONLY_OPERATIONS ∧
         (extractFirstKeyword (stripChars (toUpperChars sql)) = "SELECT".toList →
            ∀ p ∈ dangerousPatterns, reSearch p (stripChars (toUpperChars sql)) = false) ∧
         (extractFirstKeyword (stripChars (toUpperChars sql)) ≠ "SELECT".toList →
            ∀ f ∈ WRITE_OPERATIONS ++ DANGEROUS_OPERATIONS,
              containsSub f (stripChars (toUpperChars sql)) = false))) ∧
    validate_sql "SELECT * FROM T".toList .READONLY = true ∧
    validate_sql "DELETE FROM T".toList .READONLY = false ∧
    validate_sql "DROP TABLE T".toList .READONLY = false ∧
    validate_sql "SELECT * FROM T; DROP TABLE T".toList .READONLY = false :=
  ⟨fun _ => validateReadonly_eq_true _ _, by decide, by decide, by decide, by decide⟩

/-- C2: Under the LimitedWrite tier, `validate_sql` accepts a statement iff
its leading keyword is in the union of the Read and Write sets and no
keyword of the Dangerous set occurs anywhere in the upper-cased text.  In
particular LimitedWrite accepts "INSERT INTO T VALUES (1)" and
"UPDATE T SET X=1", and rejects "DELETE FROM T" and
"GRANT SELECT ON T TO U". -/
theorem validateLimitedWrite_eq_true (kw sqlU : List Char) :
    validateLimitedWrite kw sqlU = true ↔
      (kw ∈ READONLY_OPERATIONS ++ WRITE_OPERATIONS ∧
       ∀ d ∈ DANGEROUS_OPERATIONS, containsSub d sqlU = false) := by
  unfold validateLimitedWrite
  by_cases hm : kw ∈ READONLY_OPERATIONS ++ WRITE_OPERATIONS
  · simp [hm, List.all_eq_true, Bool.not_eq_true']
  · simp [hm]

theorem c2_limited_write_validation :
    (∀ sql : List Char,
      validate_sql sql .LIMITED_WRITE = true ↔
        (extractFirstKeyword (stripChars (toUpperChars sql)) ∈
            READONLY_OPERATIONS ++ WRITE_OPERATIONS ∧
         ∀ d ∈ DANGEROUS_OPERATIONS,
           containsSub d (stripChars (toUpperChars sql)) = false)) ∧
    validate_sql "INSERT INTO T VALUES (1)".toList .LIMITED_WRITE = true ∧
    validate_sql "UPDATE T SET X=1".toList .LIMITED_WRITE = true ∧
    validate_sql "DELETE FROM T".toList .LIMITED_WRITE = false ∧
    validate_sql "GRANT SELECT ON T TO U".toList .LIMITED_WRITE = false :=
  ⟨fun _ => validateLimitedWrite_eq_true _ _, by decide, by decide, by decide, by decide⟩

/-- C6: Every statement whose leading keyword is empty (blank or
whitespace-only text) is rejected under ReadOnly and under LimitedWrite,
while FullAccess accepts every statement whatsoever, including
"DROP TABLE T". -/
theorem c6_blank_and_full_access :
    (∀ sql : List Char,
        extractFirstKeyword (stripChars (toUpperChars sql)) = [] →
          validate_sql sql .READONLY = false ∧
          validate_sql sql .LIMITED_WRITE = false) ∧
    (∀ sql : List Char, validate_sql sql .FULL_ACCESS = true) ∧
    validate_sql "DROP TABLE T".toList .FULL_ACCESS = true := by
  have hro : ([] : List Char) ∉ READONLY_OPERATIONS := by decide
  have hlw : ([] : List Char) ∉ READONLY_OPERATIONS ++ WRITE_OPERATIONS := by decide
  refine ⟨fun sql h => ?_, fun sql => rfl, rfl⟩
  simp only [validate_sql, h]
  exact ⟨by simp [validateReadonly, hro], by simp [validateLimitedWrite, hlw]⟩

/-- Witness for C6 at the whitespace-only statement `"   "`. -/
theorem c6_blank_witness :
    extractFirstKeyword (stripChars (toUpperChars "   ".toList)) = [] ∧
    validate_sql "   ".toList .READONLY = false ∧
    validate_sql "   ".toList .LIMITED_WRITE = false :=
  ⟨by decide, (c6_blank_and_full_access.1 _ (by decide)).1,
   (c6_blank_and_full_access.1 _ (by decide)).2⟩

theorem lookup_setKey_self {β : Type} (k : List Char) (v : β)
    (l : List (List Char × β)) : lookupKey k (setKey k v l) = some v := by
  induction l with
  | nil => simp [setKey, lookupKey]
  | cons p t ih =>
    by_cases h : p.1 = k
    · simp [setKey, h, lookupKey]
    · simp [setKey, h, lookupKey, ih]

theorem keys_setKey {β : Type} (k : List Char) (v : β)
    (l : List (List Char × β)) : keysOf (setKey k v l) = insK k (keysOf l) := by
  induction l with
  | nil => simp [setKey, insK, keysOf]
  | cons p t ih =>
    by_cases h : p.1 = k
    · simp [setKey, h, insK, keysOf]
    · simp only [keysOf, setKey, insK, h, if_neg h, List.map_cons]
      simpa [keysOf] using ih

theorem keys_eraseKey {β : Type} (k : List Char)
    (l : List (List Char × β)) : keysOf (eraseKey k l) = eraseK k (keysOf l) := by
  induction l with
  | nil => simp [eraseKey, eraseK, keysOf]
  | cons p t ih =>
    by_cases h : p.1 = k
    · simp [eraseKey, h, eraseK, keysOf]
    · simp only [keysOf, eraseKey, eraseK, h, if_neg h, List.map_cons]
      simpa [keysOf] using ih

theorem mem_insK {a k : List Char} {ks : List (List Char)} :
    a ∈ insK k ks ↔ a ∈ ks ∨ a = k := by
  induction ks with
  | nil => simp [insK]
  | cons x t ih =>
    by_cases h : x = k
    · subst h
      simp [insK]
      tauto
    · simp [insK, h, ih]
      tauto

theorem insK_of_mem {k : List Char} {ks : List (List Char)} (h : k ∈ ks) :
    insK k ks = ks := by
  induction ks with
  | nil => cases h
  | cons x t ih =>
    by_cases hx : x = k
    · simp [insK, hx]
    · rcases List.mem_cons.mp h with h1 | h2
      · exact absurd h1.symm hx
      · simp [insK, hx, ih h2]

theorem length_insK_le (k : List Char) (ks : List (List Char)) :
    (insK k ks).length ≤ ks.length + 1 := by
  induction ks with
  | nil => simp [insK]
  | cons x t ih =>
    by_cases h : x = k
    · simp [insK, h]
    · simp only [insK, if_neg h, List.length_cons]
      omega

theorem eraseK_sublist (k : List Char) (ks : List (List Char)) :
    (eraseK k ks).Sublist ks := by
  induction ks with
  | nil => simp [eraseK]
  | cons x t ih =>
    by_cases h : x = k
    · simp only [eraseK, if_pos h]
      exact (List.sublist_cons_self x t)
    · simp only [eraseK, if_neg h]
      exact ih.cons₂ x

theorem length_eraseK_le (k : List Char) (ks : List (List Char)) :
    (eraseK k ks).length ≤ ks.length :=
  (eraseK_sublist k ks).length_le

theorem length_eraseK_of_mem {k : List Char} {ks : List (List Char)}
    (h : k ∈ ks) : (eraseK k ks).length + 1 = ks.length := by
  induction ks with
  | nil => cases h
  | cons x t ih =>
    by_cases hx : x = k
    · simp [eraseK, hx]
    · rcases List.mem_cons.mp h with h1 | h2
      · exact absurd h1.symm hx
      · have := ih h2
        simp only [eraseK, if_neg hx, List.length_cons]
        omega

theorem nodup_insK {k : List Char} {ks : List (List Char)} (h : ks.Nodup) :
    (insK k ks).Nodup := by
  induction ks with
  | nil => simp [insK]
  | cons x t ih =>
    by_cases hx : x = k
    · simpa [insK, hx] using h
    · have hxt : x ∉ t := (List.nodup_cons.mp h).1
      have ht : t.Nodup := (List.nodup_cons.mp h).2
      simp only [insK, if_neg hx, List.nodup_cons]
      exact ⟨fun hc => (mem_insK.mp hc).elim hxt hx, ih ht⟩

theorem nodup_eraseK {k : List Char} {ks : List (List Char)} (h : ks.Nodup) :
    (eraseK k ks).Nodup :=
  h.sublist (eraseK_sublist k ks)

theorem lookup_some_mem {β : Type} {k : List Char} {v : β}
    {l : List (List Char × β)} (h : lookupKey k l = some v) : k ∈ keysOf l := by
  induction l with
  | nil => simp [lookupKey] at h
  | cons p t ih =>
    simp only [keysOf, List.map_cons, List.mem_cons]
    by_cases hp : p.1 = k
    · exact .inl hp.symm
    · simp only [lookupKey, if_neg hp] at h
      exact .inr (ih h)

theorem lookup_none_of_not_mem {β : Type} {k : List Char}
    {l : List (List Char × β)} (h : k ∉ keysOf l) : lookupKey k l = none := by
  induction l with
  | nil => rfl
  | cons p t ih =>
    simp only [keysOf, List.map_cons, List.mem_cons] at h
    push_neg at h
    have h1 : ¬ p.1 = k := fun hc => h.1 hc.symm
    simp only [lookupKey, if_neg h1]
    exact ih h.2

theorem not_mem_eraseK_of_nodup {k : List Char} {ks : List (List Char)}
    (h : ks.Nodup) : k ∉ eraseK k ks := by
  induction ks with
  | nil => simp [eraseK]
  | cons x t ih =>
    by_cases hx : x = k
    · subst hx
      simpa [eraseK] using (List.nodup_cons.mp h).1
    · have ht := (List.nodup_cons.mp h).2
      simp only [eraseK, if_neg hx, List.mem_cons]
      push_neg
      exact ⟨fun hc => hx hc.symm, ih ht⟩

theorem lookup_eraseKey_self {β : Type} {k : List Char}
    {l : List (List Char × β)} (h : (keysOf l).Nodup) :
    lookupKey k (eraseKey k l) = none := by
  apply lookup_none_of_not_mem
  rw [keys_eraseKey]
  exact not_mem_eraseK_of_nodup h

theorem setKey_of_not_mem {β : Type} {k : List Char} (v : β)
    {l : List (List Char × β)} (h : k ∉ keysOf l) :
    setKey k v l = l ++ [(k, v)] := by
  induction l with
  | nil => rfl
  | cons p t ih =>
    simp only [keysOf, List.map_cons, List.mem_cons] at h
    push_neg at h
    have h1 : ¬ p.1 = k := fun hc => h.1 hc.symm
    simp only [setKey, if_neg h1, List.cons_append, List.cons.injEq, true_and]
    exact ih h.2

theorem argminGo_mem (k : List Char) (v : Nat) (l : List (List Char × Nat)) :
    argminGo k v l ∈ k :: keysOf l := by
  induction l generalizing k v with
  | nil => simp [argminGo]
  | cons p t ih =>
    by_cases h : p.2 < v
    · simp only [argminGo, if_pos h]
      have := ih p.1 p.2
      simp [keysOf] at this ⊢
      tauto
    · simp only [argminGo, if_neg h]
      have := ih k v
      simp [keysOf] at this ⊢
      tauto

theorem argminKey_mem {l : List (List Char × Nat)} {k : List Char}
    (h : argminKey l = some k) : k ∈ keysOf l := by
  cases l with
  | nil => simp [argminKey] at h
  | cons p t =>
    simp only [argminKey, Option.some.injEq] at h
    subst h
    simpa [keysOf] using argminGo_mem p.1 p.2 t

theorem argminGo_zero (k : List Char) (l : List (List Char × Nat)) :
    argminGo k 0 l = k := by
  induction l with
  | nil => rfl
  | cons p t ih => simpa [argminGo, Nat.not_lt_zero] using ih

/-- `argminGo k v l` either keeps the seed `k` (when no value of `l` beats
`v`) or returns the key at the first position of `l` whose value is
strictly below `v` and strictly below every earlier value, and no later
value beats it. -/
theorem argminGo_split (l : List (List Char × Nat)) : ∀ (k : List Char) (v : Nat),
    (argminGo k v l = k ∧ ∀ p ∈ l, v ≤ p.2) ∨
    (∃ l1 m w l2, l = l1 ++ (m, w) :: l2 ∧ argminGo k v l = m ∧ w < v ∧
      (∀ p ∈ l1, w < p.2) ∧ (∀ p ∈ l2, w ≤ p.2)) := by
  induction l with
  | nil =>
    intro k v
    left
    exact ⟨rfl, by simp⟩
  | cons p t ih =>
    intro k v
    have hstep : argminGo k v (p :: t) =
        if p.2 < v then argminGo p.1 p.2 t else argminGo k v t := rfl
    by_cases h : p.2 < v
    · rcases ih p.1 p.2 with ⟨heq, hall⟩ | ⟨l1, m, w, l2, hsplit, heq, hlt, hall1, hall2⟩
      · right
        refine ⟨[], p.1, p.2, t, ?_, ?_, h, by simp, hall⟩
        · rw [List.nil_append]
        · rw [hstep, if_pos h]
          exact heq
      · right
        refine ⟨p :: l1, m, w, l2, ?_, ?_, lt_trans hlt h, ?_, hall2⟩
        · rw [hsplit, List.cons_append]
        · rw [hstep, if_pos h]
          exact heq
        · intro q hq
          rcases List.mem_cons.mp hq with rfl | hq'
          · exact hlt
          · exact hall1 q hq'
    · rcases ih k v with ⟨heq, hall⟩ | ⟨l1, m, w, l2, hsplit, heq, hlt, hall1, hall2⟩
      · left
        refine ⟨?_, ?_⟩
        · rw [hstep, if_neg h]
          exact heq
        · intro q hq
          rcases List.mem_cons.mp hq with rfl | hq'
          · exact Nat.not_lt.mp h
          · exact hall q hq'
      · right
        refine ⟨p :: l1, m, w, l2, ?_, ?_, hlt, ?_, hall2⟩
        · rw [hsplit, List.cons_append]
        · rw [hstep, if_neg h]
          exact heq
        · intro q hq
          rcases List.mem_cons.mp hq with rfl | hq'
          · exact lt_of_lt_of_le hlt (Nat.not_lt.mp h)
          · exact hall1 q hq'

/-- The key returned by `argminKey` (Python `min` over the access map in
iteration order) sits at the first position attaining the minimum: its
value is strictly below every earlier value and at most every later one
(first-encountered tie-break). -/
theorem argminKey_first_min {L : List (List Char × Nat)} {m : List Char}
    (h : argminKey L = some m) :
    ∃ l1 v l2, L = l1 ++ (m, v) :: l2 ∧
      (∀ p ∈ l1, v < p.2) ∧ (∀ p ∈ l2, v ≤ p.2) := by
  cases L with
  | nil => simp [argminKey] at h
  | cons p t =>
    simp only [argminKey, Option.some.injEq] at h
    rcases argminGo_split t p.1 p.2 with ⟨heq, hall⟩ |
      ⟨l1, m', w, l2, hsplit, heq, hlt, hall1, hall2⟩
    · have hm : m = p.1 := by rw [← h]; exact heq
      refine ⟨[], p.2, t, ?_, by simp, hall⟩
      rw [List.nil_append, hm]
    · have hm : m = m' := by rw [← h]; exact heq
      subst hm
      refine ⟨p :: l1, w, l2, ?_, ?_, hall2⟩
      · rw [hsplit, List.cons_append]
      · intro q hq
        rcases List.mem_cons.mp hq with rfl | hq'
        · exact hlt
        · exact hall1 q hq'

theorem evictOldest_ttl (c : QueryCache α) : (evictOldest c).ttl = c.ttl := by
  unfold evictOldest
  cases argminKey c.access_times <;> rfl

theorem evictOldest_max_size (c : QueryCache α) :
    (evictOldest c).max_size = c.max_size := by
  unfold evictOldest
  cases argminKey c.access_times <;> rfl

theorem cacheSet_ttl (c : QueryCache α) (now : Nat) (sql : List Char)
    (data : α) (schema : Option (List Char)) :
    (cacheSet c now sql data schema).ttl = c.ttl := by
  unfold cacheSet
  by_cases hf : c.cache.length ≥ c.max_size <;> simp [hf, evictOldest_ttl]

theorem cacheSet_max_size (c : QueryCache α) (now : Nat) (sql : List Char)
    (data : α) (schema : Option (List Char)) :
    (cacheSet c now sql data schema).max_size = c.max_size := by
  unfold cacheSet
  by_cases hf : c.cache.length ≥ c.max_size <;> simp [hf, evictOldest_max_size]

theorem nodup_keys_evictOldest_cache {c : QueryCache α}
    (hc : (keysOf c.cache).Nodup) : (keysOf (evictOldest c).cache).Nodup := by
  unfold evictOldest
  cases argminKey c.access_times with
  | none => exact hc
  | some k =>
    show (keysOf (eraseKey k c.cache)).Nodup
    rw [keys_eraseKey]
    exact nodup_eraseK hc

theorem nodup_keys_evictOldest_access {c : QueryCache α}
    (ha : (keysOf c.access_times).Nodup) :
    (keysOf (evictOldest c).access_times).Nodup := by
  unfold evictOldest
  cases argminKey c.access_times with
  | none => exact ha
  | some k =>
    show (keysOf (eraseKey k c.access_times)).Nodup
    rw [keys_eraseKey]
    exact nodup_eraseK ha

theorem nodup_keys_cacheSet_cache {c : QueryCache α} {now : Nat}
    {sql : List Char} {data : α} {schema : Option (List Char)}
    (hc : (keysOf c.cache).Nodup) :
    (keysOf (cacheSet c now sql data schema).cache).Nodup := by
  show (keysOf (setKey (generate_key sql schema) ⟨data, now, sql, schema⟩
         (if c.cache.length ≥ c.max_size then evictOldest c else c).cache)).Nodup
  rw [keys_setKey]
  apply nodup_insK
  by_cases hf : c.cache.length ≥ c.max_size
  · rw [if_pos hf]
    exact nodup_keys_evictOldest_cache hc
  · rw [if_neg hf]
    exact hc

theorem nodup_keys_cacheSet_access {c : QueryCache α} {now : Nat}
    {sql : List Char} {data : α} {schema : Option (List Char)}
    (ha : (keysOf c.access_times).Nodup) :
    (keysOf (cacheSet c now sql data schema).access_times).Nodup := by
  show (keysOf (setKey (generate_key sql schema) now
         (if c.cache.length ≥ c.max_size then evictOldest c else c).access_times)).Nodup
  rw [keys_setKey]
  apply nodup_insK
  by_cases hf : c.cache.length ≥ c.max_size
  · rw [if_pos hf]
    exact nodup_keys_evictOldest_access ha
  · rw [if_neg hf]
    exact ha

theorem cacheGet_hit {c : QueryCache α} {now : Nat} {sql : List Char}
    {schema : Option (List Char)} {e : CacheEntry α}
    (hlook : lookupKey (generate_key sql schema) c.cache = some e)
    (hcond : ¬ now - e.timestamp > c.ttl) :
    cacheGet c now sql schema =
      (some e.data,
       { c with access_times := setKey (generate_key sql schema) now c.access_times }) := by
  simp only [cacheGet, hlook]
  simp [hcond]

theorem cacheGet_expired {c : QueryCache α} {now : Nat} {sql : List Char}
    {schema : Option (List Char)} {e : CacheEntry α}
    (hlook : lookupKey (generate_key sql schema) c.cache = some e)
    (hcond : now - e.timestamp > c.ttl) :
    cacheGet c now sql schema = (none, cacheRemove c (generate_key sql schema)) := by
  simp only [cacheGet, hlook]
  simp [hcond]

/-- C5: Cache round-trip with TTL.  For every starting cache state (with
duplicate-free key maps, an invariant of every reachable state), every
sql, payload and namespace: `set` at time `t0` followed by `get` at time
`now` returns the stored payload when `now - t0 ≤ ttl` (leaving the entry
map unchanged and updating that key's last-access time to `now`); when
`now - t0 > ttl` (strictly) the same `get` returns `none` and removes the
stale entry from both maps. -/
theorem c5_set_get_roundtrip (α : Type) (c : QueryCache α) (sql : List Char)
    (data : α) (schema : Option (List Char)) (t0 now : Nat)
    (hc : (keysOf c.cache).Nodup) (ha : (keysOf c.access_times).Nodup) :
    ((cacheGet (cacheSet c t0 sql data schema) now sql schema).1 =
       (if now - t0 ≤ c.ttl then some data else none)) ∧
    (if now - t0 ≤ c.ttl then
       (cacheGet (cacheSet c t0 sql data schema) now sql schema).2.cache =
           (cacheSet c t0 sql data schema).cache ∧
       lookupKey (generate_key sql schema)
           (cacheGet (cacheSet c t0 sql data schema) now sql schema).2.access_times =
         some now
     else
       lookupKey (generate_key sql schema)
           (cacheGet (cacheSet c t0 sql data schema) now sql schema).2.cache = none ∧
       lookupKey (generate_key sql schema)
           (cacheGet (cacheSet c t0 sql data schema) now sql schema).2.access_times = none) := by
  have hlook : lookupKey (generate_key sql schema)
      (cacheSet c t0 sql data schema).cache = some ⟨data, t0, sql, schema⟩ :=
    lookup_setKey_self _ _ _
  have httl : (cacheSet c t0 sql data schema).ttl = c.ttl :=
    cacheSet_ttl c t0 sql data schema
  by_cases hfresh : now - t0 ≤ c.ttl
  · have hcond : ¬ now - (⟨data, t0, sql, schema⟩ : CacheEntry α).timestamp >
        (cacheSet c t0 sql data schema).ttl := by
      rw [httl]
      exact Nat.not_lt.mpr hfresh
    rw [cacheGet_hit hlook hcond, if_pos hfresh, if_pos hfresh]
    exact ⟨rfl, ⟨rfl, lookup_setKey_self _ _ _⟩⟩
  · have hcond : now - (⟨data, t0, sql, schema⟩ : CacheEntry α).timestamp >
        (cacheSet c t0 sql data schema).ttl := by
      rw [httl]
      exact Nat.lt_of_not_le hfresh
    rw [cacheGet_expired hlook hcond, if_neg hfresh, if_neg hfresh]
    refine ⟨rfl, ?_, ?_⟩
    · exact lookup_eraseKey_self (nodup_keys_cacheSet_cache hc)
    · exact lookup_eraseKey_self (nodup_keys_cacheSet_access ha)

theorem length_keysOf {β : Type} (l : List (List Char × β)) :
    (keysOf l).length = l.length :=
  List.length_map l Prod.fst

theorem length_eraseKey_le {β : Type} (k : List Char)
    (l : List (List Char × β)) : (eraseKey k l).length ≤ l.length := by
  rw [← length_keysOf, ← length_keysOf l, keys_eraseKey]
  exact length_eraseK_le k (keysOf l)

theorem length_eraseKey_of_mem {β : Type} {k : List Char}
    {l : List (List Char × β)} (h : k ∈ keysOf l) :
    (eraseKey k l).length + 1 = l.length := by
  rw [← length_keysOf, ← length_keysOf l, keys_eraseKey]
  exact length_eraseK_of_mem h

theorem length_setKey_le {β : Type} (k : List Char) (v : β)
    (l : List (List Char × β)) : (setKey k v l).length ≤ l.length + 1 := by
  rw [← length_keysOf, ← length_keysOf l, keys_setKey]
  exact length_insK_le k (keysOf l)

theorem applyOp_max_size (c : QueryCache α) (op : CacheOp α) :
    (applyOp c op).max_size = c.max_size := by
  cases op with
  | get now sql schema =>
    simp only [applyOp, cacheGet]
    cases lookupKey (generate_key sql schema) c.cache with
    | none => rfl
    | some e =>
      by_cases hexp : now - e.timestamp > c.ttl
      · simp [hexp, cacheRemove]
      · simp [hexp]
  | set now sql data schema => exact cacheSet_max_size c now sql data schema
  | clear => rfl

/-- One public operation preserves "entry keys = access keys", and leaves
at most `max_size` entries, provided `max_size ≥ 1`. -/
theorem cacheInvStep {c : QueryCache α} (op : CacheOp α)
    (hpos : 1 ≤ c.max_size)
    (hkeys : keysOf c.cache = keysOf c.access_times)
    (hlen : c.cache.length ≤ c.max_size) :
    keysOf (applyOp c op).cache = keysOf (applyOp c op).access_times ∧
    (applyOp c op).cache.length ≤ c.max_size := by
  cases op with
  | get now sql schema =>
    simp only [applyOp, cacheGet]
    cases hl : lookupKey (generate_key sql schema) c.cache with
    | none => exact ⟨hkeys, hlen⟩
    | some e =>
      by_cases hexp : now - e.timestamp > c.ttl
      · simp only [if_pos hexp, cacheRemove]
        refine ⟨?_, le_trans (length_eraseKey_le _ _) hlen⟩
        rw [keys_eraseKey, keys_eraseKey, hkeys]
      · simp only [if_neg hexp]
        refine ⟨?_, hlen⟩
        have hmem : generate_key sql schema ∈ keysOf c.access_times := by
          rw [← hkeys]
          exact lookup_some_mem hl
        rw [keys_setKey, insK_of_mem hmem, hkeys]
  | set now sql data schema =>
    simp only [applyOp, cacheSet]
    by_cases hf : c.cache.length ≥ c.max_size
    · have hlen' : c.cache.length = c.max_size := le_antisymm hlen hf
      have hne : c.access_times ≠ [] := by
        intro h0
        have : keysOf c.cache = [] := by rw [hkeys, h0]; rfl
        have : c.cache.length = 0 := by
          rw [← length_keysOf, this]
          rfl
        omega
      obtain ⟨p, t, hpt⟩ := List.exists_cons_of_ne_nil hne
      have hm : argminKey c.access_times = some (argminGo p.1 p.2 t) := by
        rw [hpt]
        rfl
      have he : evictOldest c = cacheRemove c (argminGo p.1 p.2 t) := by
        unfold evictOldest
        rw [hm]
      have hmema : argminGo p.1 p.2 t ∈ keysOf c.access_times :=
        argminKey_mem hm
      have hmemc : argminGo p.1 p.2 t ∈ keysOf c.cache := by
        rw [hkeys]
        exact hmema
      simp only [if_pos hf, he, cacheRemove]
      constructor
      · rw [keys_setKey, keys_setKey, keys_eraseKey, keys_eraseKey, hkeys]
      · have h1 := length_eraseKey_of_mem (l := c.cache) hmemc
        have h2 := length_setKey_le (generate_key sql schema)
          (⟨data, now, sql, schema⟩ : CacheEntry α) (eraseKey (argminGo p.1 p.2 t) c.cache)
        omega
    · simp only [if_neg hf]
      constructor
      · rw [keys_setKey, keys_setKey, hkeys]
      · have h2 := length_setKey_le (generate_key sql schema)
          (⟨data, now, sql, schema⟩ : CacheEntry α) c.cache
        omega
  | clear =>
    simp only [applyOp, cacheClear]
    exact ⟨rfl, by simp⟩

/-- The invariant holds of every state reached from a well-formed state. -/
theorem runOps_inv_aux (ops : List (CacheOp α)) :
    ∀ c : QueryCache α, 1 ≤ c.max_size →
      keysOf c.cache = keysOf c.access_times →
      c.cache.length ≤ c.max_size →
      keysOf (runOps c ops).cache = keysOf (runOps c ops).access_times ∧
      (runOps c ops).cache.length ≤ c.max_size ∧
      (runOps c ops).max_size = c.max_size := by
  induction ops with
  | nil => exact fun c _ h2 h3 => ⟨h2, h3, rfl⟩
  | cons op t ih =>
    intro c h1 h2 h3
    have hstep := cacheInvStep op h1 h2 h3
    have hms := applyOp_max_size c op
    have hrun : runOps c (op :: t) = runOps (applyOp c op) t := rfl
    have hrec := ih (applyOp c op) (by rw [hms]; exact h1) hstep.1
      (by rw [hms]; exact hstep.2)
    rw [hrun]
    exact ⟨hrec.1, by rw [← hms]; exact hrec.2.1, by rw [hrec.2.2, hms]⟩

/-- C3 (amended: the capacity must be at least 1; see the counterexample
below for capacity 0): for every sequence of public cache operations
(get, set, clear) starting from an empty cache with capacity `cap ≥ 1`
and any ttl, after each operation returns the number of stored entries is
at most `cap`, and the keys of the last-access map are a subset of the
keys of the entry map (the two key sets are in fact equal). -/
theorem c3_cache_invariant (α : Type) (cap ttl : Nat) (hpos : 1 ≤ cap)
    (ops : List (CacheOp α)) :
    (runOps (emptyCache α cap ttl) ops).cache.length ≤ cap ∧
    ∀ k ∈ keysOf (runOps (emptyCache α cap ttl) ops).access_times,
      k ∈ keysOf (runOps (emptyCache α cap ttl) ops).cache := by
  have h := runOps_inv_aux ops (emptyCache α cap ttl) hpos rfl (by simp [emptyCache])
  refine ⟨h.2.1, fun k hk => ?_⟩
  rw [h.1]
  exact hk

/-- C3 counterexample for the claim as stated ("any configured capacity"):
with capacity 0, a single `set` from the empty cache leaves 1 entry,
violating `|entries| ≤ capacity` (`_evict_oldest` is a no-op on an empty
access map, and the insertion then overshoots). -/
theorem c3_capacity_zero_counterexample :
    ¬ ((runOps (emptyCache Nat 0 300) [CacheOp.set 0 "A".toList 1 none]).cache.length ≤
        (emptyCache Nat 0 300).max_size) := by
  decide

/-- Witness for C3 at capacity 2 with a concrete operation sequence. -/
theorem c3_cache_invariant_witness :
    1 ≤ 2 ∧
    ((runOps (emptyCache Nat 2 300)
        [CacheOp.set 0 "A".toList 1 none, CacheOp.get 1 "A".toList none,
         CacheOp.set 2 "B".toList 2 none, CacheOp.set 3 "C".toList 3 none]).cache.length ≤ 2 ∧
     ∀ k ∈ keysOf (runOps (emptyCache Nat 2 300)
        [CacheOp.set 0 "A".toList 1 none, CacheOp.get 1 "A".toList none,
         CacheOp.set 2 "B".toList 2 none, CacheOp.set 3 "C".toList 3 none]).access_times,
       k ∈ keysOf (runOps (emptyCache Nat 2 300)
        [CacheOp.set 0 "A".toList 1 none, CacheOp.get 1 "A".toList none,
         CacheOp.set 2 "B".toList 2 none, CacheOp.set 3 "C".toList 3 none]).cache) :=
  ⟨by decide,
   c3_cache_invariant Nat 2 300 (by decide)
     [CacheOp.set 0 "A".toList 1 none, CacheOp.get 1 "A".toList none,
      CacheOp.set 2 "B".toList 2 none, CacheOp.set 3 "C".toList 3 none]⟩

theorem generate_key_none_inj {a b : List Char}
    (h : generate_key a none = generate_key b none) : a = b := by
  simp only [generate_key] at h
  exact List.append_cancel_right h

theorem keysOf_nil {β : Type} : keysOf ([] : List (List Char × β)) = [] :=
  rfl

theorem keysOf_cons {β : Type} (p : List Char × β) (l : List (List Char × β)) :
    keysOf (p :: l) = p.1 :: keysOf l :=
  rfl

theorem keysOf_append {β : Type} (l m : List (List Char × β)) :
    keysOf (l ++ m) = keysOf l ++ keysOf m :=
  List.map_append _ _ _

theorem keys_entriesOf (d : α) (t0 : Nat) (ks : List (List Char)) :
    keysOf (entriesOf d t0 ks) = ks.map (fun k => generate_key k none) := by
  induction ks generalizing t0 with
  | nil => rfl
  | cons k t ih =>
    simp only [entriesOf, keysOf_cons, List.map_cons]
    rw [ih]

theorem keys_timesOf (t0 : Nat) (ks : List (List Char)) :
    keysOf (timesOf t0 ks) = ks.map (fun k => generate_key k none) := by
  induction ks generalizing t0 with
  | nil => rfl
  | cons k t ih =>
    simp only [timesOf, keysOf_cons, List.map_cons]
    rw [ih]

theorem length_entriesOf (d : α) (t0 : Nat) (ks : List (List Char)) :
    (entriesOf d t0 ks).length = ks.length := by
  induction ks generalizing t0 with
  | nil => rfl
  | cons k t ih => simp [entriesOf, ih]

theorem insertAll_append (d : α) (xs ys : List (List Char)) :
    ∀ (c : QueryCache α) (t0 : Nat),
      insertAll c d t0 (xs ++ ys) =
        insertAll (insertAll c d t0 xs) d (t0 + xs.length) ys := by
  induction xs with
  | nil => intro c t0; simp [insertAll]
  | cons x t ih =>
    intro c t0
    simp only [List.cons_append, insertAll, List.length_cons, List.append_eq]
    rw [ih]
    congr 1
    omega

/-- Filling a cache that has room for all of a list of fresh, distinct
statements appends the corresponding entries and access times in
insertion order, at consecutive timestamps. -/
theorem insertAll_fresh (d : α) (ks : List (List Char)) :
    ∀ (c : QueryCache α) (t0 : Nat),
      c.cache.length + ks.length ≤ c.max_size →
      (∀ k ∈ ks, generate_key k none ∉ keysOf c.cache) →
      keysOf c.access_times = keysOf c.cache →
      ks.Nodup →
      insertAll c d t0 ks =
        { c with cache := c.cache ++ entriesOf d t0 ks,
                 access_times := c.access_times ++ timesOf t0 ks } := by
  induction ks with
  | nil =>
    intro c t0 _ _ _ _
    simp [insertAll, entriesOf, timesOf]
  | cons k kt ih =>
    intro c t0 hroom hfresh hacc hnodup
    have hguard : ¬ c.cache.length ≥ c.max_size := by
      simp only [List.length_cons] at hroom
      omega
    have hfc : generate_key k none ∉ keysOf c.cache :=
      hfresh k (List.mem_cons_self k kt)
    have hfa : generate_key k none ∉ keysOf c.access_times := by
      rw [hacc]
      exact hfc
    have hset : cacheSet c t0 k d none =
        { c with cache := c.cache ++ [(generate_key k none, ⟨d, t0, k, none⟩)],
                 access_times := c.access_times ++ [(generate_key k none, t0)] } := by
      simp only [cacheSet, if_neg hguard]
      rw [setKey_of_not_mem _ hfc, setKey_of_not_mem _ hfa]
    simp only [insertAll, hset]
    rw [ih]
    · simp only [entriesOf, timesOf]
      congr 1 <;> simp [List.append_assoc]
    · simp only [List.length_append, List.length_cons, List.length_nil] at hroom ⊢
      omega
    · intro k' hk' hc
      have hc' : generate_key k' none ∈ keysOf c.cache ∨
          generate_key k' none = generate_key k none := by
        rw [keysOf_append, keysOf_cons] at hc
        simpa [keysOf_nil] using hc
      rcases hc' with h1 | h2
      · exact hfresh k' (List.mem_cons_of_mem k hk') h1
      · exact (List.nodup_cons.mp hnodup).1 (generate_key_none_inj h2 ▸ hk')
    · rw [keysOf_append, keysOf_append, hacc]
      rfl
    · exact (List.nodup_cons.mp hnodup).2

/-- The C4 overflow scenario: inserting `capacity + 1` distinct
statements with strictly increasing access times into an empty cache of
capacity ≥ 1 leaves exactly `capacity` entries whose keys are those of
all but the first statement, in order; the first statement's key (the
smallest lastAccess before the overflow insert) is the only one absent. -/
theorem insertOverflow_scenario (α : Type) (d : α) (cap ttl : Nat) (ks : List (List Char))
    (hpos : 1 ≤ cap) (hnodup : ks.Nodup) (hlen : ks.length = cap + 1) :
    (insertAll (emptyCache α cap ttl) d 0 ks).cache.length = cap ∧
    keysOf (insertAll (emptyCache α cap ttl) d 0 ks).cache =
      (ks.drop 1).map (fun k => generate_key k none) ∧
    ∀ k0, ks.head? = some k0 →
      generate_key k0 none ∉ keysOf (insertAll (emptyCache α cap ttl) d 0 ks).cache := by
  have hlen0 : ks.length ≠ 0 := by omega
  have hne : ks ≠ [] := fun h0 => hlen0 (by simp [h0])
  obtain ⟨k0, kt, rfl⟩ := List.exists_cons_of_ne_nil hne
  obtain hkt | ⟨it, klast, rfl⟩ := kt.eq_nil_or_concat'
  · exfalso
    rw [hkt] at hlen
    simp at hlen
    omega
  have hit : it.length + 1 = cap := by
    simp only [List.length_cons, List.length_append, List.length_nil] at hlen
    omega
  have hsplit : k0 :: (it ++ [klast]) = (k0 :: it) ++ [klast] := rfl
  have hfront : (k0 :: it).Nodup := by
    rw [hsplit] at hnodup
    exact hnodup.of_append_left
  have hklast : klast ∉ k0 :: it := by
    rw [hsplit, List.nodup_append] at hnodup
    intro hc
    exact hnodup.2.2 hc (List.mem_singleton_self klast)
  have hk0 : k0 ∉ it ++ [klast] := (List.nodup_cons.mp hnodup).1
  have hS : insertAll (emptyCache α cap ttl) d 0 (k0 :: it) =
      (⟨entriesOf d 0 (k0 :: it), cap, ttl, timesOf 0 (k0 :: it)⟩ : QueryCache α) := by
    rw [insertAll_fresh d (k0 :: it) (emptyCache α cap ttl) 0
      (by simp [emptyCache]; omega) (by simp [emptyCache, keysOf])
      rfl hfront]
    rfl
  have hargmin : argminKey (timesOf 0 (k0 :: it)) = some (generate_key k0 none) := by
    show some (argminGo (generate_key k0 none) 0 (timesOf (0 + 1) it)) = _
    rw [argminGo_zero]
  have hfreshc : generate_key klast none ∉ keysOf (entriesOf d 1 it) := by
    rw [keys_entriesOf]
    intro hc
    obtain ⟨a, ha, hak⟩ := List.mem_map.mp hc
    exact hklast (List.mem_cons_of_mem k0 (generate_key_none_inj hak ▸ ha))
  have hfresha : generate_key klast none ∉ keysOf (timesOf 1 it) := by
    rw [keys_timesOf, ← keys_entriesOf d 1 it]
    exact hfreshc
  have hev : evictOldest (⟨entriesOf d 0 (k0 :: it), cap, ttl,
        timesOf 0 (k0 :: it)⟩ : QueryCache α) =
      (⟨entriesOf d 1 it, cap, ttl, timesOf 1 it⟩ : QueryCache α) := by
    unfold evictOldest
    rw [hargmin]
    show cacheRemove _ _ = _
    unfold cacheRemove
    simp only [entriesOf, timesOf, eraseKey, if_pos]
  have hguard : (entriesOf d 0 (k0 :: it)).length ≥ cap := by
    rw [length_entriesOf]
    simp only [List.length_cons]
    omega
  have hfin : cacheSet (⟨entriesOf d 0 (k0 :: it), cap, ttl,
        timesOf 0 (k0 :: it)⟩ : QueryCache α) (0 + (k0 :: it).length) klast d none =
      (⟨entriesOf d 1 it ++
          [(generate_key klast none, ⟨d, 0 + (k0 :: it).length, klast, none⟩)],
        cap, ttl,
        timesOf 1 it ++ [(generate_key klast none, 0 + (k0 :: it).length)]⟩ :
        QueryCache α) := by
    simp only [cacheSet, if_pos hguard, hev]
    rw [setKey_of_not_mem _ hfreshc, setKey_of_not_mem _ hfresha]
  have hfinal : insertAll (emptyCache α cap ttl) d 0 (k0 :: (it ++ [klast])) =
      (⟨entriesOf d 1 it ++
          [(generate_key klast none, ⟨d, 0 + (k0 :: it).length, klast, none⟩)],
        cap, ttl,
        timesOf 1 it ++ [(generate_key klast none, 0 + (k0 :: it).length)]⟩ :
        QueryCache α) := by
    rw [hsplit, insertAll_append, hS]
    show cacheSet _ _ _ _ _ = _
    exact hfin
  rw [hfinal]
  refine ⟨?_, ?_, ?_⟩
  · simp only [List.length_append, length_entriesOf, List.length_cons, List.length_nil]
    omega
  · rw [keysOf_append, keys_entriesOf, keysOf_cons, keysOf_nil]
    simp
  · intro k0' hk0'
    obtain rfl : k0 = k0' := by simpa using hk0'
    intro hc
    rw [keysOf_append, keysOf_cons, keysOf_nil] at hc
    rcases List.mem_append.mp hc with hm | hm
    · rw [keys_entriesOf] at hm
      obtain ⟨a, ha, hak⟩ := List.mem_map.mp hm
      exact hk0 (List.mem_append_left _ (generate_key_none_inj hak ▸ ha))
    · have hkl : k0 = klast := generate_key_none_inj (List.mem_singleton.mp hm)
      refine hk0 ?_
      rw [hkl]
      exact List.mem_append_right it (List.mem_singleton_self klast)

/-- `set` on a cache holding exactly `max_size ≥ 1` entries (with the
reachable-state invariant that the two maps have the same keys) first
evicts exactly one entry — the one at the first position of the access
map attaining the minimal lastAccess timestamp — and then inserts. -/
theorem cacheSet_at_capacity_evicts (α : Type) (c : QueryCache α) (now : Nat)
    (sql : List Char) (data : α) (schema : Option (List Char))
    (hkeys : keysOf c.cache = keysOf c.access_times)
    (hfull : c.cache.length = c.max_size)
    (hpos : 1 ≤ c.max_size) :
    ∃ m v l1 l2,
      c.access_times = l1 ++ (m, v) :: l2 ∧
      (∀ p ∈ l1, v < p.2) ∧
      (∀ p ∈ l2, v ≤ p.2) ∧
      m ∈ keysOf c.cache ∧
      (eraseKey m c.cache).length + 1 = c.cache.length ∧
      cacheSet c now sql data schema =
        { c with
          cache := setKey (generate_key sql schema) ⟨data, now, sql, schema⟩
            (eraseKey m c.cache),
          access_times := setKey (generate_key sql schema) now
            (eraseKey m c.access_times) } := by
  have hne : c.access_times ≠ [] := by
    intro h0
    have h1 : keysOf c.cache = [] := by rw [hkeys, h0]; rfl
    have h2 : c.cache.length = 0 := by rw [← length_keysOf, h1]; rfl
    omega
  obtain ⟨q, t, hqt⟩ := List.exists_cons_of_ne_nil hne
  have hm : argminKey c.access_times = some (argminGo q.1 q.2 t) := by
    rw [hqt]
    rfl
  obtain ⟨l1, v, l2, hsplit, hall1, hall2⟩ := argminKey_first_min hm
  have hmema : argminGo q.1 q.2 t ∈ keysOf c.access_times := argminKey_mem hm
  have hmemc : argminGo q.1 q.2 t ∈ keysOf c.cache := by
    rw [hkeys]
    exact hmema
  have hev : evictOldest c = cacheRemove c (argminGo q.1 q.2 t) := by
    unfold evictOldest
    rw [hm]
  have hguard : c.cache.length ≥ c.max_size := hfull.ge
  refine ⟨argminGo q.1 q.2 t, v, l1, l2, hsplit, hall1, hall2, hmemc,
    length_eraseKey_of_mem hmemc, ?_⟩
  simp only [cacheSet, if_pos hguard, hev, cacheRemove]

/-- C4: When `set` is called on a cache holding exactly `capacity ≥ 1`
entries (in any reachable state: equal key sets in both maps), it first
evicts exactly one entry — the one whose lastAccess timestamp is
smallest, ties broken by first-encountered iteration order (its
timestamp is strictly below every earlier one and at most every later
one) — before inserting.  Consequently, inserting `capacity + 1`
distinct keys at strictly increasing access times into an empty cache
leaves exactly `capacity` entries, and the least-recently-touched key
before the overflow insert is the only one absent afterwards. -/
theorem c4_lru_eviction :
    (∀ (α : Type) (c : QueryCache α) (now : Nat) (sql : List Char) (data : α)
        (schema : Option (List Char)),
      keysOf c.cache = keysOf c.access_times →
      c.cache.length = c.max_size →
      1 ≤ c.max_size →
      ∃ m v l1 l2,
        c.access_times = l1 ++ (m, v) :: l2 ∧
        (∀ p ∈ l1, v < p.2) ∧
        (∀ p ∈ l2, v ≤ p.2) ∧
        m ∈ keysOf c.cache ∧
        (eraseKey m c.cache).length + 1 = c.cache.length ∧
        cacheSet c now sql data schema =
          { c with
            cache := setKey (generate_key sql schema) ⟨data, now, sql, schema⟩
              (eraseKey m c.cache),
            access_times := setKey (generate_key sql schema) now
              (eraseKey m c.access_times) }) ∧
    (∀ (α : Type) (d : α) (cap ttl : Nat) (ks : List (List Char)),
      1 ≤ cap → ks.Nodup → ks.length = cap + 1 →
      (insertAll (emptyCache α cap ttl) d 0 ks).cache.length = cap ∧
      keysOf (insertAll (emptyCache α cap ttl) d 0 ks).cache =
        (ks.drop 1).map (fun k => generate_key k none) ∧
      ∀ k0, ks.head? = some k0 →
        generate_key k0 none ∉ keysOf (insertAll (emptyCache α cap ttl) d 0 ks).cache) :=
  ⟨fun α c now sql data schema hkeys hfull hpos =>
    cacheSet_at_capacity_evicts α c now sql data schema hkeys hfull hpos,
   fun α d cap ttl ks hpos hnodup hlen =>
    insertOverflow_scenario α d cap ttl ks hpos hnodup hlen⟩

/-- Witness for C4: the at-capacity eviction applied to a concrete cache
of capacity 2 holding "A" (lastAccess 0) and "B" (lastAccess 1), and the
overflow scenario at capacity 2 with statements "A", "B", "C". -/
theorem c4_lru_eviction_witness :
    (keysOf c4WitnessCache.cache = keysOf c4WitnessCache.access_times ∧
     c4WitnessCache.cache.length = c4WitnessCache.max_size ∧
     1 ≤ c4WitnessCache.max_size ∧
     ∃ m v l1 l2,
       c4WitnessCache.access_times = l1 ++ (m, v) :: l2 ∧
       (∀ p ∈ l1, v < p.2) ∧
       (∀ p ∈ l2, v ≤ p.2) ∧
       m ∈ keysOf c4WitnessCache.cache ∧
       (eraseKey m c4WitnessCache.cache).length + 1 = c4WitnessCache.cache.length ∧
       cacheSet c4WitnessCache 2 "C".toList 3 none =
         { c4WitnessCache with
           cache := setKey (generate_key "C".toList none) ⟨3, 2, "C".toList, none⟩
             (eraseKey m c4WitnessCache.cache),
           access_times := setKey (generate_key "C".toList none) 2
             (eraseKey m c4WitnessCache.access_times) }) ∧
    (1 ≤ 2 ∧ (["A".toList, "B".toList, "C".toList] : List (List Char)).Nodup ∧
     (["A".toList, "B".toList, "C".toList] : List (List Char)).length = 2 + 1 ∧
     ((insertAll (emptyCache Nat 2 300) 0 0
         ["A".toList, "B".toList, "C".toList]).cache.length = 2 ∧
      keysOf (insertAll (emptyCache Nat 2 300) 0 0
          ["A".toList, "B".toList, "C".toList]).cache =
        ((["A".toList, "B".toList, "C".toList] : List (List Char)).drop 1).map
          (fun k => generate_key k none) ∧
      ∀ k0, (["A".toList, "B".toList, "C".toList] : List (List Char)).head? = some k0 →
        generate_key k0 none ∉ keysOf (insertAll (emptyCache Nat 2 300) 0 0
          ["A".toList, "B".toList, "C".toList]).cache)) :=
  ⟨⟨by decide, by decide, by decide,
    c4_lru_eviction.1 Nat c4WitnessCache 2 "C".toList 3 none
      (by decide) (by decide) (by decide)⟩,
   ⟨by decide, by decide, by decide,
    c4_lru_eviction.2 Nat 0 2 300 ["A".toList, "B".toList, "C".toList]
      (by decide) (by decide) (by decide)⟩⟩

/-- C7 counterexample: the claim says every validated statement whose
leading keyword is in the Read set (which includes ANALYZE) consults the
cache.  But `execute_query` gates caching by
`startswith(('SELECT','WITH','SHOW','DESCRIBE','EXPLAIN'))`, which omits
ANALYZE: "ANALYZE TABLE T" is accepted by the ReadOnly validator with a
Read-set leading keyword, yet takes the non-query path and leaves the
cache untouched. -/
theorem c7_analyze_not_cached :
    extractFirstKeyword (stripChars (toUpperChars "ANALYZE TABLE T".toList)) ∈
      READONLY_OPERATIONS ∧
    validate_sql "ANALYZE TABLE T".toList .READONLY = true ∧
    isQueryStatement "ANALYZE TABLE T".toList = false ∧
    execute_query (fun _ => (42 : Nat)) .READONLY (emptyCache Nat 100 300) 0
        "ANALYZE TABLE T".toList true =
      (.ok .nonQuery, emptyCache Nat 100 300) :=
  ⟨by decide, by decide, by decide, rfl⟩

/-- C7 (amended): for every statement accepted by the validator,
`execute_query` interacts with the cache exactly when caching is enabled
and the upper-cased trimmed text begins (as a string prefix, not a
leading-token test) with one of SELECT, WITH, SHOW, DESCRIBE, EXPLAIN
(ANALYZE excluded); in that case it consults `get` first and on a miss
executes and writes the result back with `set`; in every other case the
returned cache state is exactly the input state — the cache is never read
or populated. -/
theorem c7_cache_gating (α : Type) (dbRun : List Char → α) (mode : SecurityMode)
    (c : QueryCache α) (now : Nat) (sql : List Char) (use_cache : Bool)
    (hval : validate_sql sql mode = true) :
    execute_query dbRun mode c now sql use_cache =
      (if (use_cache && isQueryStatement sql) = true then
        match cacheGet c now sql none with
        | (some r, c') => (.ok (.rows r), c')
        | (none, c') => (.ok (.rows (dbRun sql)), cacheSet c' now sql (dbRun sql) none)
      else
        (.ok (if isQueryStatement sql then ExecResult.rows (dbRun sql) else .nonQuery),
         c)) := by
  by_cases hq : (use_cache && isQueryStatement sql) = true
  · obtain ⟨hu, hqs⟩ := Bool.and_eq_true_iff.mp hq
    rcases hget : cacheGet c now sql none with ⟨ro, c'⟩
    cases ro with
    | none => simp [execute_query, hval, hu, hqs, hq, hget]
    | some r => simp [execute_query, hval, hu, hqs, hq, hget]
  · by_cases hqs : isQueryStatement sql = true
    · cases hu : use_cache with
      | false => simp [execute_query, hval, hqs, hu]
      | true =>
        rw [hu, hqs] at hq
        simp at hq
    · simp only [Bool.not_eq_true] at hqs
      simp [execute_query, hval, hqs]

/-- Witness for C7 (amended) at a concrete accepted SELECT. -/
theorem c7_cache_gating_witness :
    validate_sql "SELECT 1".toList .READONLY = true ∧
    execute_query (fun _ => (42 : Nat)) .READONLY (emptyCache Nat 100 300) 0
        "SELECT 1".toList true =
      (if (true && isQueryStatement "SELECT 1".toList) = true then
        match cacheGet (emptyCache Nat 100 300) 0 "SELECT 1".toList none with
        | (some r, c') => (.ok (.rows r), c')
        | (none, c') => (.ok (.rows 42), cacheSet c' 0 "SELECT 1".toList 42 none)
      else
        (.ok (if isQueryStatement "SELECT 1".toList then ExecResult.rows 42
              else .nonQuery),
         emptyCache Nat 100 300)) :=
  ⟨by decide,
   c7_cache_gating Nat (fun _ => 42) .READONLY (emptyCache Nat 100 300) 0
     "SELECT 1".toList true (by decide)⟩

/-- C8: every statement rejected by the validator under the configured
tier makes `execute_query` raise the `ValueError` built from
`get_error_message` (naming the tier and offending keyword) before any
cache access, and the returned cache state is exactly the input state —
both maps untouched. -/
theorem c8_rejected_no_cache (α : Type) (dbRun : List Char → α)
    (mode : SecurityMode) (c : QueryCache α) (now : Nat) (sql : List Char)
    (use_cache : Bool) (hrej : validate_sql sql mode = false) :
    execute_query dbRun mode c now sql use_cache =
      (.error ("SQL操作被安全策略禁止: " ++ get_error_message sql mode), c) := by
  simp [execute_query, hrej]

/-- Witness for C8 at the rejected statement "DELETE FROM T" under
ReadOnly. -/
theorem c8_rejected_no_cache_witness :
    validate_sql "DELETE FROM T".toList .READONLY = false ∧
    execute_query (fun _ => (0 : Nat)) .READONLY (emptyCache Nat 100 300) 0
        "DELETE FROM T".toList true =
      (.error ("SQL操作被安全策略禁止: " ++
          get_error_message "DELETE FROM T".toList .READONLY),
       emptyCache Nat 100 300) :=
  ⟨by decide,
   c8_rejected_no_cache Nat (fun _ => 0) .READONLY (emptyCache Nat 100 300) 0
     "DELETE FROM T".toList true (by decide)⟩

/-- C10: the cache key is determined by the concatenation
`sql + "_" + (namespace or "")` (md5, a deterministic function, is
abstracted away, so equal concatenations address the identical entry):
namespace `None` and namespace `""` address the same entry for every sql,
and distinct (sql, namespace) pairs with coinciding concatenations — such
as ("A_", "") and ("A", "_") — share one cache entry and overwrite each
other. -/
theorem c10_cache_key_collisions :
    (∀ sql : List Char, generate_key sql none = generate_key sql (some [])) ∧
    generate_key "A_".toList (some []) = generate_key "A".toList (some "_".toList) ∧
    (∀ (α : Type) (c : QueryCache α) (now now' : Nat) (d1 d2 : α),
      lookupKey (generate_key "A_".toList (some []))
          (cacheSet (cacheSet c now "A_".toList d1 (some []))
            now' "A".toList d2 (some "_".toList)).cache =
        some ⟨d2, now', "A".toList, some "_".toList⟩) ∧
    (cacheSet (cacheSet (emptyCache Nat 100 300) 0 "A_".toList 1 (some []))
        1 "A".toList 2 (some "_".toList)).cache.length = 1 ∧
    (cacheGet (cacheSet (cacheSet (emptyCache Nat 100 300) 0 "A_".toList 1 (some []))
        1 "A".toList 2 (some "_".toList)) 1 "A_".toList (some [])).1 = some 2 := by
  refine ⟨fun sql => rfl, rfl, fun α c now now' d1 d2 => ?_, by decide, by decide⟩
  have hk : generate_key "A_".toList (some ([] : List Char)) =
      generate_key "A".toList (some "_".toList) := rfl
  rw [hk]
  exact lookup_setKey_self _ _ _

/-- Witness for C5: a concrete fresh-hit instance at `now - t0 = 3 ≤ ttl`. -/
theorem c5_set_get_roundtrip_witness :
    (keysOf (emptyCache Nat 100 300).cache).Nodup ∧
    (keysOf (emptyCache Nat 100 300).access_times).Nodup ∧
    (((cacheGet (cacheSet (emptyCache Nat 100 300) 0 "SELECT 1".toList 7 none)
        3 "SELECT 1".toList none).1 =
      (if 3 - 0 ≤ (emptyCache Nat 100 300).ttl then some 7 else none)) ∧
     (if 3 - 0 ≤ (emptyCache Nat 100 300).ttl then
        (cacheGet (cacheSet (emptyCache Nat 100 300) 0 "SELECT 1".toList 7 none)
            3 "SELECT 1".toList none).2.cache =
            (cacheSet (emptyCache Nat 100 300) 0 "SELECT 1".toList 7 none).cache ∧
        lookupKey (generate_key "SELECT 1".toList none)
            (cacheGet (cacheSet (emptyCache Nat 100 300) 0 "SELECT 1".toList 7 none)
              3 "SELECT 1".toList none).2.access_times = some 3
      else
        lookupKey (generate_key "SELECT 1".toList none)
            (cacheGet (cacheSet (emptyCache Nat 100 300) 0 "SELECT 1".toList 7 none)
              3 "SELECT 1".toList none).2.cache = none ∧
        lookupKey (generate_key "SELECT 1".toList none)
            (cacheGet (cacheSet (emptyCache Nat 100 300) 0 "SELECT 1".toList 7 none)
              3 "SELECT 1".toList none).2.access_times = none)) :=
  ⟨by decide, by decide,
   c5_set_get_roundtrip Nat (emptyCache Nat 100 300) "SELECT 1".toList 7 none 0 3
     (by decide) (by decide)⟩

